import Mathlib

/-!
Shallow embedding of the `paul-nameless/fetch` repository (src/main.py and
src/webmcp.py) for checking its specification.

Strings manipulated by the scraper are modelled as `List Char`. The DOM of a
search-results page is abstracted to the list of result containers; each
container records the outcome of the three sub-element lookups performed by
`search_and_extract_results`:
  * the URL link element (`[data-testid='result-extras-url-link']`) together
    with its `href` attribute (`get_attribute` may itself return no value),
  * the title element's inner text,
  * the description element's inner text.
Python's `re.search(r"(\w+ \d+, \d{4})", s)`, `str.replace(old, "")` and
`str.strip()` are embedded directly below. `\w` is modelled on the ASCII
fragment (alphanumeric or underscore), which is the fragment the pattern's
surrounding claims exercise.
-/

/-- One result container of the rendered search page, as seen through the
three `query_selector` calls of `search_and_extract_results`.
`urlElem = none` means the URL link element is absent; `urlElem = some h`
means the element is present and `get_attribute "href"` returned `h`. -/
structure RawResult where
  urlElem : Option (Option (List Char))
  titleElem : Option (List Char)
  descElem : Option (List Char)
deriving DecidableEq

/-- The `SearchResult` dataclass of src/main.py. -/
structure SearchResult where
  url : List Char
  title : List Char
  description : List Char
  date : Option (List Char)
deriving DecidableEq

/-- Python `\w` (word character), ASCII fragment: alphanumeric or underscore. -/
def isWordChar (c : Char) : Bool :=
  c.isAlphanum || c = '_'

/-- Characters removed by Python's `str.strip()` (ASCII whitespace). -/
def isPySpace (c : Char) : Bool :=
  c = ' ' || c = '\t' || c = '\n' || c = '\r' || c = '\x0b' || c = '\x0c'

/-- Python `str.strip()`: drop leading and trailing whitespace. -/
def pyStrip (s : List Char) : List Char :=
  ((s.dropWhile isPySpace).reverse.dropWhile isPySpace).reverse

/-- Scanner for Python `str.replace(old, "")`: walks the string left to
right; a pending skip count `k` consumes the remaining characters of an
occurrence that has already been matched. -/
def replAux (old : List Char) : Nat → List Char → List Char
  | _, [] => []
  | 0, c :: rest =>
    if List.isPrefixOf old (c :: rest) then replAux old (old.length - 1) rest
    else c :: replAux old 0 rest
  | k + 1, _ :: rest => replAux old k rest

/-- Python `s.replace(old, "")`: remove every non-overlapping occurrence of
`old` from `s`, scanning left to right. (`s.replace("", "")` is `s`.) -/
def replaceAll (old s : List Char) : List Char :=
  if old = [] then s else replAux old 0 s

/-- Matching the regex `\w+ \d+, \d{4}` at the start of `s`.  Greedy `\w+`
followed by a space can only be the maximal word-character run (a shorter run
is followed by a word character, never a space), and likewise greedy `\d+`
followed by a comma; `\d{4}` is the next four characters, with no constraint
on what follows.  Returns the matched characters and the remainder of `s`. -/
def dateMatchAt (s : List Char) : Option (List Char × List Char) :=
  match s.dropWhile isWordChar with
  | ' ' :: r1 =>
    if s.takeWhile isWordChar = [] then none
    else
      match r1.dropWhile Char.isDigit with
      | ',' :: ' ' :: a :: b :: c :: d :: t =>
        if r1.takeWhile Char.isDigit = [] then none
        else if a.isDigit && b.isDigit && c.isDigit && d.isDigit then
          some (s.takeWhile isWordChar ++ ' ' :: r1.takeWhile Char.isDigit ++
            ',' :: ' ' :: [a, b, c, d], t)
        else none
      | _ => none
  | _ => none

/-- Python `re.search(r"(\w+ \d+, \d{4})", s)`: try each start position from
the left; at the first position where the pattern matches, return the text
before the match, the matched substring, and the text after it. -/
def reSearchDateSplit : List Char → Option (List Char × List Char × List Char)
  | [] => none
  | c :: rest =>
    match dateMatchAt (c :: rest) with
    | some (m, t) => some ([], m, t)
    | none =>
      match reSearchDateSplit rest with
      | some (pre, m, post) => some (c :: pre, m, post)
      | none => none

/-- The matched substring of the first date match, i.e. `group(1)`. -/
def reSearchDate (s : List Char) : Option (List Char) :=
  (reSearchDateSplit s).map fun x => x.2.1

/-- The search engine origin prepended to relative hrefs (src/main.py:149). -/
def ddgOrigin : List Char := "https://duckduckgo.com".toList

/-- Sentinel used when the title element is absent (src/main.py:158). -/
def noTitleSentinel : List Char := "No title".toList

/-- Sentinel used when the description element is absent (src/main.py:166). -/
def noDescSentinel : List Char := "No description".toList

/-- The raw description text used for a container: the description element's
inner text, or the sentinel when the element is absent (src/main.py:163-167). -/
def rawDesc (r : RawResult) : List Char :=
  r.descElem.getD noDescSentinel

/-- URL handling of src/main.py:141-151: `url` is the `href` attribute when
the link element is present, else `None`; a relative URL (leading `/`) is
resolved against the origin; a falsy URL (`None` or `""`) causes `continue`. -/
def resolveUrl : Option (Option (List Char)) → Option (List Char)
  | some (some u) =>
    if !u.isEmpty && List.isPrefixOf ['/'] u then some (ddgOrigin ++ u)
    else if u.isEmpty then none
    else some u
  | some none => none
  | none => none

/-- Field extraction of src/main.py:153-182 for a container whose URL was
resolved to `url`: sentinel defaults for title/description, date search on
the raw description, and — when a date was found and is non-empty — removal
of every occurrence of it followed by `strip()`. -/
def mkResult (url : List Char) (r : RawResult) : SearchResult :=
  match reSearchDate (rawDesc r) with
  | some d =>
    if d = [] then ⟨url, r.titleElem.getD noTitleSentinel, rawDesc r, some d⟩
    else ⟨url, r.titleElem.getD noTitleSentinel, pyStrip (replaceAll d (rawDesc r)), some d⟩
  | none => ⟨url, r.titleElem.getD noTitleSentinel, rawDesc r, none⟩

/-- Processing of one result container: `none` exactly when the container is
skipped by the `continue` of src/main.py:150-151. -/
def procResult (r : RawResult) : Option SearchResult :=
  match resolveUrl r.urlElem with
  | some url => some (mkResult url r)
  | none => none

/-- The extraction loop of src/main.py:137-182, starting at enumeration
index `i` with cap `n`.  `failAt = some j` models an exception raised while
the container with enumeration index `j` is being processed (a DOM access
error); the results accumulated before that point are what the top-level
`except` handler lets the function return. -/
def runResults (failAt : Option Nat) (n : Nat) : Nat → List RawResult → List SearchResult
  | _, [] => []
  | i, r :: rest =>
    if n ≤ i then []
    else if failAt = some i then []
    else
      match procResult r with
      | some sr => sr :: runResults failAt n (i + 1) rest
      | none => runResults failAt n (i + 1) rest

/-- `search_and_extract_results` of src/main.py on a rendered results page
whose containers are `elems`, in the run where no exception occurs. -/
def search_and_extract_results (n : Nat) (elems : List RawResult) : List SearchResult :=
  runResults none n 0 elems

/-- Outcome of the browser interaction inside the `try` block: either
navigation / waiting for the result selector fails before any container is
enumerated, or the page yields the containers `elems` and an optional
enumeration index at which a DOM access raises. -/
inductive NavOutcome where
  | failed
  | loaded (elems : List RawResult) (failAt : Option Nat)
deriving DecidableEq

/-- `search_and_extract_results` with the try/except of src/main.py:120-189
made explicit: `results` is accumulated inside the `try` block and returned
after the `except` handler swallows any exception. -/
def search_run (n : Nat) : NavOutcome → List SearchResult
  | .failed => []
  | .loaded elems failAt => runResults failAt n 0 elems

/-- Declarative reading of the pattern, following the spec's words: a word
(one or more word characters), a space, one or more digits, a comma, a space,
exactly four digits. -/
def shapeDate (m : List Char) : Prop :=
  ∃ w ds y, m = w ++ ' ' :: ds ++ ',' :: ' ' :: y ∧
    w ≠ [] ∧ (∀ c ∈ w, isWordChar c = true) ∧
    ds ≠ [] ∧ (∀ c ∈ ds, c.isDigit = true) ∧
    y.length = 4 ∧ (∀ c ∈ y, c.isDigit = true)

/-- The raw description contains a pattern-shaped substring starting at
offset `i`. -/
def matchFrom (s : List Char) (i : Nat) : Prop :=
  ∃ m t, List.drop i s = m ++ t ∧ shapeDate m

/-- A container with every sub-element present and a usable non-empty href. -/
def wellFormedB (r : RawResult) : Bool :=
  match r.urlElem with
  | some (some u) => !u.isEmpty && r.titleElem.isSome && r.descElem.isSome
  | _ => false

/-- The content extractor (trafilatura) as an opaque capability: plain-text
and markdown extraction, each possibly yielding nothing. -/
structure Extractor where
  extractText : String → Option String
  extractMarkdown : String → Option String

/-- The `ValueError` message of src/main.py:91. -/
def invalidTypeMsg (output_type : String) : String :=
  "Invalid output type: " ++ output_type

/-- `fetch_content` of src/main.py:64-91.  The browser fetch is represented
by its result `html` (`fetch_html` catches its own errors and yields `None`,
so only an `Option` crosses this interface); the `match` on `output_type` is
the source's sequence of literal cases, whose catch-all raises `ValueError`,
modelled as `Except.error`. -/
def fetch_content (ex : Extractor) (html : Option String) (output_type : String) :
    Except String (Option String) :=
  match html with
  | none => Except.ok none
  | some h =>
    if output_type = "html" then Except.ok (some h)
    else if output_type = "text" then Except.ok (ex.extractText h)
    else if output_type = "md" then Except.ok (ex.extractMarkdown h)
    else Except.error (invalidTypeMsg output_type)

/-- Sentinel returned by src/webmcp.py:48 when no content was extracted. -/
def noContentMsg : String :=
  "Could not extract content from the provided URL."

/-- Message built by src/webmcp.py:51 from a caught exception. -/
def errFetchMsg (e : String) : String :=
  "Error fetching content: " ++ e

/-- The `fetch` tool of src/webmcp.py:36-51.  `outcome` is the result of
awaiting `fetch_content(url, "md")`: `Except.error e` models that call
raising an exception rendered as `e`; the `try`/`except` and the
`if not content` test (false for `None` and for the empty string) are
translated directly. -/
def fetch (outcome : Except String (Option String)) : String :=
  match outcome with
  | Except.error e => errFetchMsg e
  | Except.ok none => noContentMsg
  | Except.ok (some c) => if c = "" then noContentMsg else c

/-- An outcome with no usable content: the awaited call raised, or content
was `None` or empty (Python falsy). -/
def isFailureOutcome : Except String (Option String) → Bool
  | Except.error _ => true
  | Except.ok none => true
  | Except.ok (some c) => c == ""

/-- Sample absolute href. -/
def uAbs : List Char := "https://example.com".toList

/-- Sample relative href, as produced by the search engine. -/
def uRel : List Char := "/l/?uddg=abc".toList

/-- Sample title text. -/
def tSample : List Char := "T".toList

/-- Sample description text with no date-shaped substring. -/
def dSample : List Char := "hello".toList

/-- Raw description in which the matched date substring occurs twice. -/
def rawCex : List Char := "May 1, 2024 x May 1, 2024".toList

/-- The date substring matched in `rawCex` (and in `rawUniq`). -/
def dCex : List Char := "May 1, 2024".toList

/-- What follows the first match of `dCex` inside `rawCex`. -/
def postCex : List Char := " x May 1, 2024".toList

/-- Container whose description is `rawCex`. -/
def rCex : RawResult := ⟨some (some uAbs), some tSample, some rawCex⟩

/-- The result the code produces for `rCex`. -/
def srCex : SearchResult := ⟨uAbs, tSample, "x".toList, some dCex⟩

/-- Raw description in which the matched date substring occurs exactly once. -/
def rawUniq : List Char := "Published March 3, 2024 by Bob".toList

/-- The date substring matched in `rawUniq`. -/
def dUniq : List Char := "March 3, 2024".toList

/-- What precedes the match of `dUniq` inside `rawUniq`. -/
def preUniq : List Char := "Published ".toList

/-- What follows the match of `dUniq` inside `rawUniq`. -/
def postUniq : List Char := " by Bob".toList

/-- Container whose description is `rawUniq`. -/
def rUniq : RawResult := ⟨some (some uAbs), some tSample, some rawUniq⟩

/-- The result the code produces for `rUniq`. -/
def srUniq : SearchResult := ⟨uAbs, tSample, "Published  by Bob".toList, some dUniq⟩

/-- A fully well-formed container. -/
def rGood : RawResult := ⟨some (some uAbs), some tSample, some dSample⟩

/-- The result the code produces for `rGood`. -/
def srGood : SearchResult := ⟨uAbs, tSample, dSample, none⟩

/-- Ten well-formed containers, a results page for the cap property. -/
def list10 : List RawResult := List.replicate 10 rGood

/-- A container whose URL link element is absent. -/
def rBadUrl : RawResult := ⟨none, some tSample, some dSample⟩

/-- A container whose URL link element is present but carries no href
attribute (`get_attribute` returns `None`), with the title absent. -/
def r6cex : RawResult := ⟨some none, none, some dSample⟩

/-- A container with a usable URL but neither title nor description. -/
def rNoTD : RawResult := ⟨some (some uAbs), none, none⟩

/-- The result the code produces for `rNoTD`. -/
def srNoTD : SearchResult := ⟨uAbs, noTitleSentinel, noDescSentinel, none⟩

/-- A container with a relative href. -/
def rRel : RawResult := ⟨some (some uRel), some tSample, some dSample⟩

/-- The result the code produces for `rRel`. -/
def srRel : SearchResult := ⟨ddgOrigin ++ uRel, tSample, dSample, none⟩

/-- A sample exception rendering. -/
def boomMsg : String := "boom"

/-- Sample page markup. -/
def htmlSample : String := "<p>hi</p>"

/-- An extractor that finds no main content in any page. -/
def exNone : Extractor := ⟨fun _ => none, fun _ => none⟩

/-- Sample extracted plain text. -/
def textSample : String := "text sample"

/-- Sample extracted markdown. -/
def mdSample : String := "md sample"

/-- An extractor that returns fixed content for any page. -/
def exConst : Extractor := ⟨fun _ => some textSample, fun _ => some mdSample⟩

/-- The markdown output type literal. -/
def mdStr : String := "md"

/-- An output type none of the cases recognise. -/
def bogusStr : String := "bogus"

/-! Basic list lemmas used below. -/

theorem isPrefixOf_exists (d : List Char) : ∀ s, List.isPrefixOf d s = true ↔ ∃ t, d ++ t = s := by
  induction d with
  | nil =>
    intro s
    simp [List.isPrefixOf]
  | cons c d ih =>
    intro s
    cases s with
    | nil => simp [List.isPrefixOf]
    | cons b s =>
      simp only [List.isPrefixOf, Bool.and_eq_true, beq_iff_eq, ih, List.cons_append,
        List.cons.injEq]
      constructor
      · rintro ⟨rfl, t, rfl⟩
        exact ⟨t, rfl, rfl⟩
      · rintro ⟨t, rfl, rfl⟩
        exact ⟨rfl, t, rfl⟩

theorem isPrefixOf_nil_false (d : List Char) (hd : d ≠ []) : List.isPrefixOf d ([] : List Char) = false := by
  cases d with
  | nil => exact absurd rfl hd
  | cons c d => rfl

theorem drop_append_len (l₁ : List Char) : ∀ (i : Nat) (l₂ : List Char),
    List.drop (l₁.length + i) (l₁ ++ l₂) = List.drop i l₂ := by
  induction l₁ with
  | nil => intro i l₂; simp
  | cons c l ih =>
    intro i l₂
    have harith : (c :: l).length + i = (l.length + i) + 1 := by
      simp [List.length_cons]; omega
    rw [harith, List.cons_append, List.drop_succ_cons, ih]

theorem takeWhile_all_append (p : Char → Bool) (a : Char) (r : List Char) (ha : p a = false) :
    ∀ w, (∀ c ∈ w, p c = true) →
      List.takeWhile p (w ++ a :: r) = w ∧ List.dropWhile p (w ++ a :: r) = a :: r := by
  intro w
  induction w with
  | nil =>
    intro _
    simp [List.takeWhile, List.dropWhile, ha]
  | cons c w ih =>
    intro h
    have hc : p c = true := h c (by simp)
    have hw : ∀ x ∈ w, p x = true := fun x hx => h x (by simp [hx])
    obtain ⟨h1, h2⟩ := ih hw
    simp [List.takeWhile_cons, List.dropWhile_cons, hc, h1, h2]

/-! Soundness and completeness of the anchored matcher. -/

theorem dateMatchAt_sound {s m t : List Char} (h : dateMatchAt s = some (m, t)) :
    s = m ++ t ∧ shapeDate m := by
  unfold dateMatchAt at h
  split at h
  case h_2 => exact absurd h (by simp)
  case h_1 r1 heq1 =>
    split at h
    case isTrue => exact absurd h (by simp)
    case isFalse hW =>
      split at h
      case h_2 => exact absurd h (by simp)
      case h_1 a b c d t2 heq2 =>
        split at h
        case isTrue => exact absurd h (by simp)
        case isFalse hD =>
          split at h
          case isFalse => exact absurd h (by simp)
          case isTrue hdig =>
            have hinj := Option.some.inj h
            have hm1 := congrArg Prod.fst hinj
            have hm2 := congrArg Prod.snd hinj
            simp only at hm1 hm2
            subst hm2
            have hWc : ∀ x ∈ s.takeWhile isWordChar, isWordChar x = true :=
              fun x hx => List.mem_takeWhile_imp hx
            have hDc : ∀ x ∈ r1.takeWhile Char.isDigit, Char.isDigit x = true :=
              fun x hx => List.mem_takeWhile_imp hx
            have hs1 : s.takeWhile isWordChar ++ s.dropWhile isWordChar = s :=
              List.takeWhile_append_dropWhile isWordChar s
            have hs2 : r1.takeWhile Char.isDigit ++ r1.dropWhile Char.isDigit = r1 :=
              List.takeWhile_append_dropWhile Char.isDigit r1
            rw [heq1] at hs1
            rw [heq2] at hs2
            revert hW hD hWc hDc hm1 hs1 hs2
            generalize List.takeWhile isWordChar s = W
            generalize List.takeWhile Char.isDigit r1 = D
            intro hW hD hm1 hWc hDc hs1 hs2
            constructor
            · rw [← hm1, ← hs1, ← hs2]
              simp
            · refine ⟨W, D, [a, b, c, d], ?_, hW, hWc, hD, hDc, rfl, ?_⟩
              · rw [← hm1]
              · intro x hx
                simp only [Bool.and_eq_true] at hdig
                simp only [List.mem_cons, List.not_mem_nil, or_false] at hx
                rcases hx with rfl | rfl | rfl | rfl
                · exact hdig.1.1.1
                · exact hdig.1.1.2
                · exact hdig.1.2
                · exact hdig.2

theorem dateMatchAt_complete (w ds : List Char) (a b c d : Char) (t : List Char)
    (hw : w ≠ []) (hwc : ∀ x ∈ w, isWordChar x = true)
    (hds : ds ≠ []) (hdsc : ∀ x ∈ ds, x.isDigit = true)
    (hdig : (a.isDigit && b.isDigit && c.isDigit && d.isDigit) = true) :
    dateMatchAt (w ++ ' ' :: (ds ++ ',' :: ' ' :: a :: b :: c :: d :: t)) =
      some (w ++ ' ' :: (ds ++ ',' :: ' ' :: [a, b, c, d]), t) := by
  have hsp : isWordChar ' ' = false := by decide
  have hcm : Char.isDigit ',' = false := by decide
  obtain ⟨hT1, hD1⟩ :=
    takeWhile_all_append isWordChar ' ' (ds ++ ',' :: ' ' :: a :: b :: c :: d :: t) hsp w hwc
  obtain ⟨hT2, hD2⟩ :=
    takeWhile_all_append Char.isDigit ',' (' ' :: a :: b :: c :: d :: t) hcm ds hdsc
  simp only [dateMatchAt, hD1, hT1, hT2, hD2, hw, hds, hdig]
  simp [hw, hds, hdig, List.append_assoc]

theorem matchFrom_iff_isSome (s : List Char) (i : Nat) :
    matchFrom s i ↔ (dateMatchAt (List.drop i s)).isSome = true := by
  constructor
  · rintro ⟨m, t, heq, w, ds, y, rfl, hw, hwc, hds, hdsc, hylen, hyc⟩
    rcases y with _ | ⟨a, y⟩
    · simp at hylen
    rcases y with _ | ⟨b, y⟩
    · simp at hylen
    rcases y with _ | ⟨c, y⟩
    · simp at hylen
    rcases y with _ | ⟨d, y⟩
    · simp at hylen
    rcases y with _ | ⟨e, y⟩
    case cons => simp [List.length_cons] at hylen
    have hdig : (a.isDigit && b.isDigit && c.isDigit && d.isDigit) = true := by
      simp only [Bool.and_eq_true]
      exact ⟨⟨⟨hyc a (by simp), hyc b (by simp)⟩, hyc c (by simp)⟩, hyc d (by simp)⟩
    have harr : (w ++ ' ' :: ds ++ ',' :: ' ' :: [a, b, c, d]) ++ t =
        w ++ ' ' :: (ds ++ ',' :: ' ' :: a :: b :: c :: d :: t) := by
      simp [List.append_assoc]
    rw [heq, harr, dateMatchAt_complete w ds a b c d t hw hwc hds hdsc hdig]
    rfl
  · intro h
    obtain ⟨mt, hmt⟩ := Option.isSome_iff_exists.mp h
    obtain ⟨m, t⟩ := mt
    obtain ⟨heq, hsh⟩ := dateMatchAt_sound hmt
    exact ⟨m, t, heq, hsh⟩

theorem reSearchDateSplit_sound : ∀ {s pre m post : List Char},
    reSearchDateSplit s = some (pre, m, post) →
      s = pre ++ m ++ post ∧
      dateMatchAt (List.drop pre.length s) = some (m, post) ∧
      ∀ j, j < pre.length → dateMatchAt (List.drop j s) = none := by
  intro s
  induction s with
  | nil =>
    intro pre m post h
    simp [reSearchDateSplit] at h
  | cons c rest ih =>
    intro pre m post h
    simp only [reSearchDateSplit] at h
    split at h
    case h_1 m0 t0 hd =>
      injection h with hinj
      injection hinj with h1 hinj2
      injection hinj2 with h2 h3
      subst h1
      subst h2
      subst h3
      refine ⟨by simpa using (dateMatchAt_sound hd).1, by simpa using hd, ?_⟩
      intro j hj
      simp at hj
    case h_2 hd =>
      split at h
      case h_1 pre0 m0 post0 hr =>
        injection h with hinj
        injection hinj with h1 hinj2
        injection hinj2 with h2 h3
        subst h1
        subst h2
        subst h3
        obtain ⟨ih1, ih2, ih3⟩ := ih hr
        refine ⟨by simp [ih1], ?_, ?_⟩
        · simpa [List.length_cons, List.drop_succ_cons] using ih2
        · intro j hj
          cases j with
          | zero => simpa using hd
          | succ j' =>
            rw [List.drop_succ_cons]
            exact ih3 j' (by simpa [List.length_cons] using hj)
      case h_2 hr =>
        exact absurd h (by simp)

theorem reSearchDateSplit_isNone : ∀ {s : List Char}, reSearchDateSplit s = none →
    ∀ j, dateMatchAt (List.drop j s) = none := by
  intro s
  induction s with
  | nil =>
    intro _ j
    rw [List.drop_nil]
    rfl
  | cons c rest ih =>
    intro h j
    simp only [reSearchDateSplit] at h
    split at h
    case h_1 => exact absurd h (by simp)
    case h_2 hd =>
      split at h
      case h_1 => exact absurd h (by simp)
      case h_2 hr =>
        cases j with
        | zero => simpa using hd
        | succ j' =>
          rw [List.drop_succ_cons]
          exact ih hr j'

/-! Lemmas about the replace scanner. -/

theorem replAux_skip (d : List Char) : ∀ (l rest : List Char),
    replAux d l.length (l ++ rest) = replAux d 0 rest := by
  intro l
  induction l with
  | nil => intro rest; rfl
  | cons c l ih =>
    intro rest
    show replAux d (l.length + 1) (c :: (l ++ rest)) = replAux d 0 rest
    rw [replAux]
    exact ih rest

theorem replAux_no_occ (d : List Char) : ∀ (s : List Char),
    (∀ i, List.isPrefixOf d (List.drop i s) = false) → replAux d 0 s = s := by
  intro s
  induction s with
  | nil => intro _; rfl
  | cons c rest ih =>
    intro h
    have h0 : List.isPrefixOf d (c :: rest) = false := by simpa using h 0
    rw [replAux, if_neg (by simp [h0])]
    have hrest : ∀ i, List.isPrefixOf d (List.drop i rest) = false := by
      intro i
      simpa [List.drop_succ_cons] using h (i + 1)
    rw [ih hrest]

theorem replAux_unique_occ (d : List Char) (hd : d ≠ []) :
    ∀ (pre post : List Char),
      (∀ i, List.isPrefixOf d (List.drop i (pre ++ d ++ post)) = true → i = pre.length) →
      replAux d 0 (pre ++ d ++ post) = pre ++ post := by
  intro pre
  induction pre with
  | nil =>
    intro post huniq
    obtain ⟨c, d', rfl⟩ : ∃ c d', c :: d' = d := by
      cases d with
      | nil => exact absurd rfl hd
      | cons c d' => exact ⟨c, d', rfl⟩
    simp only [List.nil_append]
    have hpref : List.isPrefixOf (c :: d') ((c :: d') ++ post) = true :=
      (isPrefixOf_exists (c :: d') _).mpr ⟨post, rfl⟩
    rw [List.cons_append, replAux, if_pos (by simp only [← List.cons_append]; exact hpref)]
    have hlen : (c :: d').length - 1 = d'.length := by simp
    rw [hlen, replAux_skip]
    apply replAux_no_occ
    intro i
    by_contra hcon
    have htrue : List.isPrefixOf (c :: d') (List.drop i post) = true := by
      cases hb : List.isPrefixOf (c :: d') (List.drop i post)
      · exact absurd hb hcon
      · rfl
    have hshift : List.drop ((c :: d').length + i) (((c :: d') ++ post)) = List.drop i post :=
      drop_append_len (c :: d') i post
    have := huniq ((c :: d').length + i) (by
      simp only [List.nil_append]
      rw [hshift]
      exact htrue)
    simp [List.length_cons] at this
  | cons p pre ih =>
    intro post huniq
    have h0 : List.isPrefixOf d (List.drop 0 ((p :: pre) ++ d ++ post)) = true → False := by
      intro h
      have := huniq 0 h
      simp [List.length_cons] at this
    have h0f : List.isPrefixOf d (p :: (pre ++ d ++ post)) = false := by
      cases hb : List.isPrefixOf d (p :: (pre ++ d ++ post))
      · rfl
      · exact absurd (h0 (by simpa using hb)) id
    show replAux d 0 (p :: (pre ++ d ++ post)) = p :: (pre ++ post)
    rw [replAux, if_neg (by rw [h0f]; exact Bool.false_ne_true)]
    have huniq' : ∀ i, List.isPrefixOf d (List.drop i (pre ++ d ++ post)) = true → i = pre.length := by
      intro i h
      have := huniq (i + 1) (by simpa [List.drop_succ_cons] using h)
      simpa [List.length_cons] using this
    rw [ih post huniq']

/-! Lemmas about the extraction loop and per-container processing. -/

theorem runResults_eq_filterMap (n : Nat) : ∀ (elems : List RawResult) (i : Nat),
    runResults none n i elems = List.filterMap procResult (List.take (n - i) elems) := by
  intro elems
  induction elems with
  | nil => intro i; simp [runResults]
  | cons r rest ih =>
    intro i
    rw [runResults]
    by_cases hni : n ≤ i
    · have hz : n - i = 0 := by omega
      simp [hni, hz]
    · have hs : n - i = (n - (i + 1)) + 1 := by omega
      rw [if_neg hni, hs, List.take_succ_cons, List.filterMap_cons]
      simp only [reduceCtorEq, if_false]
      cases hp : procResult r with
      | some sr => simp [ih]
      | none => simp [ih]

theorem runResults_failAt (n k : Nat) : ∀ (elems : List RawResult) (i : Nat), i ≤ k →
    runResults (some k) n i elems = runResults none n i (List.take (k - i) elems) := by
  intro elems
  induction elems with
  | nil => intro i _; simp [runResults]
  | cons r rest ih =>
    intro i hik
    by_cases hni : n ≤ i
    · rw [runResults]
      rw [if_pos hni]
      cases ht : List.take (k - i) (r :: rest) with
      | nil => simp [runResults]
      | cons a l => simp [runResults, hni]
    · by_cases hki : k = i
      · subst hki
        rw [runResults, if_neg hni, if_pos rfl]
        have hz : k - k = 0 := by omega
        simp [hz, runResults]
      · have hlt : i < k := by omega
        have hs : k - i = (k - (i + 1)) + 1 := by omega
        rw [runResults, if_neg hni, if_neg (by simp [Option.some.injEq]; omega),
          hs, List.take_succ_cons, runResults, if_neg hni]
        cases hp : procResult r with
        | some sr =>
          simp only [hp]
          rw [ih (i + 1) (by omega)]
          simp
        | none =>
          simp only [hp]
          rw [ih (i + 1) (by omega)]
          simp

theorem runResults_take_append (n : Nat) : ∀ (elems : List RawResult) (j i : Nat),
    ∃ t, runResults none n i (List.take j elems) ++ t = runResults none n i elems := by
  intro elems
  induction elems with
  | nil => intro j i; exact ⟨[], by simp [runResults]⟩
  | cons r rest ih =>
    intro j i
    cases j with
    | zero => exact ⟨runResults none n i (r :: rest), by simp [runResults]⟩
    | succ j' =>
      rw [List.take_succ_cons]
      by_cases hni : n ≤ i
      · exact ⟨[], by simp [runResults, hni]⟩
      · obtain ⟨t, ht⟩ := ih j' (i + 1)
        cases hp : procResult r with
        | some sr =>
          refine ⟨t, ?_⟩
          rw [runResults, if_neg hni]
          rw [runResults, if_neg hni]
          simp only [reduceCtorEq, if_false, hp, List.cons_append, ht]
        | none =>
          refine ⟨t, ?_⟩
          rw [runResults, if_neg hni]
          rw [runResults, if_neg hni]
          simp only [reduceCtorEq, if_false, hp, ht]

theorem mem_runResults {sr : SearchResult} (n : Nat) : ∀ (elems : List RawResult) (i : Nat),
    sr ∈ runResults none n i elems → ∃ r, r ∈ elems ∧ procResult r = some sr := by
  intro elems
  induction elems with
  | nil => intro i h; simp [runResults] at h
  | cons r rest ih =>
    intro i h
    rw [runResults] at h
    by_cases hni : n ≤ i
    · rw [if_pos hni] at h
      simp at h
    · rw [if_neg hni] at h
      simp only [reduceCtorEq, if_false] at h
      cases hp : procResult r with
      | some sr2 =>
        rw [hp] at h
        rcases List.mem_cons.mp h with heq | hmem
        · exact ⟨r, by simp, by rw [hp, heq]⟩
        · obtain ⟨r2, hr2, hpr2⟩ := ih (i + 1) hmem
          exact ⟨r2, by simp [hr2], hpr2⟩
      | none =>
        rw [hp] at h
        obtain ⟨r2, hr2, hpr2⟩ := ih (i + 1) h
        exact ⟨r2, by simp [hr2], hpr2⟩

theorem mkResult_url (url : List Char) (r : RawResult) : (mkResult url r).url = url := by
  rw [mkResult]
  split
  · split
    · rfl
    · rfl
  · rfl

theorem mkResult_title (url : List Char) (r : RawResult) :
    (mkResult url r).title = r.titleElem.getD noTitleSentinel := by
  rw [mkResult]
  split
  · split
    · rfl
    · rfl
  · rfl

theorem procResult_eq_some {r : RawResult} {sr : SearchResult} (h : procResult r = some sr) :
    ∃ url, resolveUrl r.urlElem = some url ∧ sr = mkResult url r := by
  rw [procResult] at h
  split at h
  case h_1 url hu => exact ⟨url, hu, (Option.some.inj h).symm⟩
  case h_2 => exact absurd h (by simp)

theorem resolveUrl_cases {u url : List Char} (h : resolveUrl (some (some u)) = some url) :
    (List.isPrefixOf ['/'] u = true ∧ url = ddgOrigin ++ u) ∨
      (List.isPrefixOf ['/'] u = false ∧ u ≠ [] ∧ url = u) := by
  rw [resolveUrl] at h
  by_cases hp : (!u.isEmpty && List.isPrefixOf ['/'] u) = true
  · rw [if_pos hp] at h
    simp only [Bool.and_eq_true] at hp
    exact Or.inl ⟨hp.2, (Option.some.inj h).symm⟩
  · rw [if_neg hp] at h
    by_cases he : u.isEmpty = true
    · rw [if_pos he] at h
      exact absurd h (by simp)
    · rw [if_neg he] at h
      have hne : u ≠ [] := by
        intro hnil
        subst hnil
        exact he rfl
      have hpf : List.isPrefixOf ['/'] u = false := by
        cases hb : List.isPrefixOf ['/'] u
        · rfl
        · exfalso
          apply hp
          simp only [Bool.and_eq_true, hb, and_true, Bool.not_eq_true]
          cases hb2 : u.isEmpty
          · rfl
          · exact absurd hb2 he
      exact Or.inr ⟨hpf, hne, (Option.some.inj h).symm⟩

theorem wellFormedB_isSome {r : RawResult} (h : wellFormedB r = true) :
    (procResult r).isSome = true := by
  rw [wellFormedB] at h
  split at h
  case h_2 => exact absurd h (by simp)
  case h_1 u hu =>
    simp only [Bool.and_eq_true] at h
    have hne : u.isEmpty = false := by
      cases hb : u.isEmpty
      · rfl
      · exact absurd h.1.1 (by simp [hb])
    cases hp : List.isPrefixOf ['/'] u
    · simp [procResult, hu, resolveUrl, hne, hp]
    · simp [procResult, hu, resolveUrl, hne, hp]

theorem shapeDate_ne_nil {m : List Char} (h : shapeDate m) : m ≠ [] := by
  obtain ⟨w, ds, y, rfl, _⟩ := h
  simp

theorem mkResult_of_split {r : RawResult} {pre m post : List Char} (url : List Char)
    (hsplit : reSearchDateSplit (rawDesc r) = some (pre, m, post)) (hm : m ≠ []) :
    (mkResult url r).date = some m ∧
      (mkResult url r).description = pyStrip (replaceAll m (rawDesc r)) := by
  have hsd : reSearchDate (rawDesc r) = some m := by
    rw [reSearchDate, hsplit]
    rfl
  rw [mkResult, hsd]
  simp [hm]

theorem mkResult_of_none {r : RawResult} (url : List Char)
    (hsplit : reSearchDateSplit (rawDesc r) = none) :
    (mkResult url r).date = none ∧ (mkResult url r).description = rawDesc r := by
  have hsd : reSearchDate (rawDesc r) = none := by
    rw [reSearchDate, hsplit]
    rfl
  rw [mkResult, hsd]
  exact ⟨rfl, rfl⟩

theorem procResult_url_ne_nil {r : RawResult} {sr : SearchResult}
    (h : procResult r = some sr) : sr.url ≠ [] := by
  obtain ⟨url, hru, rfl⟩ := procResult_eq_some h
  rw [mkResult_url]
  rw [procResult] at h
  cases hue : r.urlElem with
  | none => rw [hue, resolveUrl] at hru; exact absurd hru (by simp)
  | some uo =>
    cases uo with
    | none => rw [hue, resolveUrl] at hru; exact absurd hru (by simp)
    | some u =>
      rw [hue] at hru
      rcases resolveUrl_cases hru with ⟨_, rfl⟩ | ⟨_, hne, rfl⟩
      · intro hnil
        rw [List.append_eq_nil] at hnil
        have : ddgOrigin ≠ [] := by decide
        exact this hnil.1
      · exact hne

theorem length_filterMap_of_isSome : ∀ (l : List RawResult),
    (∀ r ∈ l, (procResult r).isSome = true) →
    (List.filterMap procResult l).length = l.length := by
  intro l
  induction l with
  | nil => intro _; rfl
  | cons r rest ih =>
    intro h
    have hr : (procResult r).isSome = true := h r (by simp)
    obtain ⟨sr, hsr⟩ := Option.isSome_iff_exists.mp hr
    rw [List.filterMap_cons, hsr]
    simp only [List.length_cons]
    rw [ih (fun x hx => h x (by simp [hx]))]

/-! Claim theorems. -/

/-- Claim C3: the loop enumerates containers in document order and stops once
the cap is reached; on a page of 10 well-formed containers with a cap of 4,
exactly the first 4 containers (in document order) produce the 4 entries, and
the output is determined by the first 4 containers alone, so containers
beyond the cap are never inspected. -/
theorem cap_bounds_enumeration (elems : List RawResult)
    (hw : ∀ r ∈ elems, wellFormedB r = true) (hlen : elems.length = 10) :
    (search_and_extract_results 4 elems).length = 4 ∧
    search_and_extract_results 4 elems = List.filterMap procResult (List.take 4 elems) ∧
    ∀ elems2, List.take 4 elems2 = List.take 4 elems →
      search_and_extract_results 4 elems2 = search_and_extract_results 4 elems := by
  have hchar : ∀ l : List RawResult, search_and_extract_results 4 l =
      List.filterMap procResult (List.take 4 l) := by
    intro l
    rw [search_and_extract_results, runResults_eq_filterMap 4 l 0, Nat.sub_zero]
  refine ⟨?_, hchar elems, ?_⟩
  · rw [hchar elems, length_filterMap_of_isSome _ ?_]
    · rw [List.length_take, hlen]
      decide
    · intro r hr
      exact wellFormedB_isSome (hw r (List.take_subset 4 elems hr))
  · intro elems2 h2
    rw [hchar elems2, hchar elems, h2]

/-- Claim C3 witness: ten identical well-formed containers. -/
theorem cap_bounds_enumeration_wit : (search_and_extract_results 4 list10).length = 4 :=
  (cap_bounds_enumeration list10 (by decide) (by decide)).1

/-- Claim C4: the output is the per-container extraction filtered over the
first `n` containers only, so a container with an unresolvable URL produces
no entry at all but still counts against the enumeration index.  A concrete
page shows the output can stay short of the cap even though a valid result
sits beyond the inspected range. -/
theorem missing_url_skipped (n : Nat) (elems : List RawResult) :
    search_and_extract_results n elems = List.filterMap procResult (List.take n elems) ∧
    (∀ r : RawResult, resolveUrl r.urlElem = none → procResult r = none) ∧
    search_and_extract_results 1 (rBadUrl :: rGood :: []) = [] ∧
    procResult rGood = some srGood := by
  refine ⟨?_, ?_, by decide, by decide⟩
  · rw [search_and_extract_results, runResults_eq_filterMap n elems 0, Nat.sub_zero]
  · intro r h
    rw [procResult, h]

/-- Claim C4 witness: the container with no URL element is dropped. -/
theorem missing_url_skipped_wit : procResult rBadUrl = none :=
  (missing_url_skipped 1 (rBadUrl :: [])).2.1 rBadUrl (by decide)

/-- Claim C5: for a kept result, an href starting with a slash is resolved
against the search engine origin; any other href passes through unchanged. -/
theorem relative_url_resolution (r : RawResult) (sr : SearchResult) (u : List Char)
    (hu : r.urlElem = some (some u)) (h : procResult r = some sr) :
    (List.isPrefixOf ['/'] u = true → sr.url = ddgOrigin ++ u) ∧
    (List.isPrefixOf ['/'] u = false → sr.url = u) := by
  obtain ⟨url, hru, rfl⟩ := procResult_eq_some h
  rw [hu] at hru
  rcases resolveUrl_cases hru with ⟨hp, rfl⟩ | ⟨hp, hne, rfl⟩
  · exact ⟨fun _ => mkResult_url _ r, fun hf => absurd hp (by simp [hf])⟩
  · exact ⟨fun ht => absurd ht (by simp [hp]), fun _ => mkResult_url _ r⟩

/-- Claim C5 witness: a relative href is resolved against the origin. -/
theorem relative_url_resolution_wit : srRel.url = ddgOrigin ++ uRel :=
  (relative_url_resolution rRel srRel uRel (by decide) (by decide)).1 (by decide)

/-- Claim C6 counterexample: a container whose URL sub-element is present
(`urlElem ≠ none`) but whose href attribute is absent is skipped entirely,
so its absent title does not produce a sentinel entry and the result is not
included, contradicting the claim as stated. -/
theorem present_url_elem_cex :
    r6cex.urlElem ≠ none ∧ r6cex.titleElem = none ∧ procResult r6cex = none := by
  refine ⟨by decide, by decide, by decide⟩

/-- Claim C6 amended: for a container whose URL sub-element is present with a
non-empty href, an absent title yields the `No title` sentinel, an absent
description yields the `No description` sentinel, and the result is included. -/
theorem sentinel_fields (r : RawResult) (u : List Char)
    (hu : r.urlElem = some (some u)) (hne : u ≠ []) :
    ∃ sr, procResult r = some sr ∧
      (r.titleElem = none → sr.title = noTitleSentinel) ∧
      (∀ tt, r.titleElem = some tt → sr.title = tt) ∧
      (r.descElem = none → sr.description = noDescSentinel ∧ sr.date = none) := by
  have hie : u.isEmpty = false := by
    cases u with
    | nil => exact absurd rfl hne
    | cons c l => rfl
  obtain ⟨url, hurl⟩ : ∃ url, resolveUrl r.urlElem = some url := by
    rw [hu]
    cases hp : List.isPrefixOf ['/'] u
    · exact ⟨u, by simp [resolveUrl, hie, hp]⟩
    · exact ⟨ddgOrigin ++ u, by simp [resolveUrl, hie, hp]⟩
  refine ⟨mkResult url r, ?_, ?_, ?_, ?_⟩
  · rw [procResult, hurl]
  · intro ht
    rw [mkResult_title, ht]
    rfl
  · intro tt ht
    rw [mkResult_title, ht]
    rfl
  · intro hd
    have hraw : rawDesc r = noDescSentinel := by
      rw [rawDesc, hd]
      rfl
    have hnone : reSearchDateSplit (rawDesc r) = none := by
      rw [hraw]
      decide
    obtain ⟨h1, h2⟩ := mkResult_of_none url hnone
    exact ⟨by rw [h2, hraw], h1⟩

/-- Claim C6 witness: usable URL, absent title and description. -/
theorem sentinel_fields_wit :
    procResult rNoTD = some srNoTD ∧ srNoTD.title = noTitleSentinel ∧
      srNoTD.description = noDescSentinel := by
  obtain ⟨sr, h1, h2, _, h4⟩ := sentinel_fields rNoTD uAbs (by decide) (by decide)
  have hd : procResult rNoTD = some srNoTD := by decide
  rw [h1] at hd
  have hsr : sr = srNoTD := Option.some.inj hd
  subst hsr
  exact ⟨h1, h2 rfl, (h4 rfl).1⟩

/-- Claim C7: the try/except wrapper never propagates: a navigation failure
returns the empty list; a DOM failure at enumeration index `k` returns
exactly the entries accumulated from the first `k` containers, which form a
prefix (unchanged) of the full-run output; and a clean run returns the
full-run output. -/
theorem search_soft_fail (n : Nat) (elems : List RawResult) (k : Nat) :
    search_run n NavOutcome.failed = [] ∧
    search_run n (NavOutcome.loaded elems (some k)) =
      search_and_extract_results n (List.take k elems) ∧
    (∃ t, search_run n (NavOutcome.loaded elems (some k)) ++ t =
      search_and_extract_results n elems) ∧
    search_run n (NavOutcome.loaded elems none) = search_and_extract_results n elems := by
  have h2 : search_run n (NavOutcome.loaded elems (some k)) =
      search_and_extract_results n (List.take k elems) := by
    show runResults (some k) n 0 elems = runResults none n 0 (List.take k elems)
    rw [runResults_failAt n k elems 0 (Nat.zero_le k), Nat.sub_zero]
  refine ⟨rfl, h2, ?_, rfl⟩
  rw [h2]
  exact runResults_take_append n elems k 0

/-- Claim C8: `fetch_content` returns `None` whenever rendering failed; with
HTML in hand, `html` returns the markup verbatim, `text` and `md` return the
extractor's output (a `None` from the extractor propagating as a `None`
result), and any other output type raises `ValueError`. -/
theorem fetch_content_branches (ex : Extractor) (html : Option String) (ot : String) :
    (html = none → fetch_content ex html ot = Except.ok none) ∧
    (∀ h, html = some h →
      (ot = "html" → fetch_content ex html ot = Except.ok (some h)) ∧
      (ot = "text" → fetch_content ex html ot = Except.ok (ex.extractText h)) ∧
      (ot = "md" → fetch_content ex html ot = Except.ok (ex.extractMarkdown h)) ∧
      (ot = "text" → ex.extractText h = none → fetch_content ex html ot = Except.ok none) ∧
      (ot = "md" → ex.extractMarkdown h = none → fetch_content ex html ot = Except.ok none) ∧
      (ot ≠ "html" → ot ≠ "text" → ot ≠ "md" →
        fetch_content ex html ot = Except.error (invalidTypeMsg ot))) := by
  constructor
  · rintro rfl
    rfl
  · rintro h rfl
    refine ⟨?_, ?_, ?_, ?_, ?_, ?_⟩
    · rintro rfl
      rfl
    · rintro rfl
      rfl
    · rintro rfl
      rfl
    · rintro rfl hex
      simp [fetch_content, hex]
    · rintro rfl hex
      simp [fetch_content, hex]
    · intro h1 h2 h3
      simp only [fetch_content, if_neg h1, if_neg h2, if_neg h3]

/-- Claim C8 witness: concrete extractor outcomes for each branch. -/
theorem fetch_content_branches_wit :
    fetch_content exNone (some htmlSample) mdStr = Except.ok none ∧
    fetch_content exNone none mdStr = Except.ok none ∧
    fetch_content exConst (some htmlSample) bogusStr = Except.error (invalidTypeMsg bogusStr) := by
  refine ⟨?_, ?_, ?_⟩
  · exact ((fetch_content_branches exNone (some htmlSample) mdStr).2 htmlSample
      rfl).2.2.2.2.1 (by rfl) rfl
  · exact (fetch_content_branches exNone none mdStr).1 rfl
  · exact ((fetch_content_branches exConst (some htmlSample) bogusStr).2 htmlSample
      rfl).2.2.2.2.2 (by decide) (by decide) (by decide)

/-- Claim C9 counterexample: two failing outcomes of the `fetch` tool yield
two different strings, so there is no single sentinel string covering every
failing input; in particular an exception produces a message-dependent
string, not the fixed no-content sentinel. -/
theorem fetch_sentinel_not_fixed_cex :
    isFailureOutcome (Except.error boomMsg) = true ∧
    isFailureOutcome (Except.ok (none : Option String)) = true ∧
    fetch (Except.error boomMsg) ≠ fetch (Except.ok (none : Option String)) := by
  refine ⟨rfl, rfl, by decide⟩

/-- Claim C9 amended: `fetch` never raises; it returns the content when it is
non-empty, the fixed no-content sentinel when content is `None` or empty,
and the string `Error fetching content: ` followed by the exception message
when the underlying call raised — the latter varies with the exception. -/
theorem fetch_failure_strings (o : Except String (Option String)) :
    (∀ e, o = Except.error e → fetch o = errFetchMsg e) ∧
    (o = Except.ok none → fetch o = noContentMsg) ∧
    (∀ c, o = Except.ok (some c) →
      (c = "" → fetch o = noContentMsg) ∧ (c ≠ "" → fetch o = c)) := by
  refine ⟨?_, ?_, ?_⟩
  · rintro e rfl
    rfl
  · rintro rfl
    rfl
  · rintro c rfl
    constructor
    · rintro rfl
      rfl
    · intro hne
      simp [fetch, hne]

/-- Claim C9 amended witness: non-empty markdown content passes through. -/
theorem fetch_failure_strings_wit : fetch (Except.ok (some mdSample)) = mdSample :=
  ((fetch_failure_strings (Except.ok (some mdSample))).2.2 mdSample rfl).2 (by decide)

/-- Claim C10: every kept result has a non-empty URL; an empty href is
treated exactly like an absent URL element — the container is skipped. -/
theorem kept_url_nonempty (n : Nat) (elems : List RawResult) (sr : SearchResult)
    (h : sr ∈ search_and_extract_results n elems) :
    sr.url ≠ [] ∧
    ∀ tt dd, procResult ⟨some (some []), tt, dd⟩ = none ∧
      procResult (⟨none, tt, dd⟩ : RawResult) = none := by
  constructor
  · obtain ⟨r, _, hpr⟩ := mem_runResults n elems 0 h
    exact procResult_url_ne_nil hpr
  · intro tt dd
    exact ⟨rfl, rfl⟩

/-- Claim C10 witness: the kept sample result has a non-empty URL. -/
theorem kept_url_nonempty_wit : srGood.url ≠ [] :=
  (kept_url_nonempty 1 (rGood :: []) srGood (by decide)).1

theorem dateMatchAt_of_shape {m : List Char} (t : List Char) (hsh : shapeDate m) :
    dateMatchAt (m ++ t) = some (m, t) := by
  obtain ⟨w, ds, y, rfl, hw, hwc, hds, hdsc, hylen, hyc⟩ := hsh
  rcases y with _ | ⟨a, y⟩
  · simp at hylen
  rcases y with _ | ⟨b, y⟩
  · simp at hylen
  rcases y with _ | ⟨c, y⟩
  · simp at hylen
  rcases y with _ | ⟨d, y⟩
  · simp at hylen
  rcases y with _ | ⟨e, y⟩
  case cons => simp [List.length_cons] at hylen
  have hdig : (a.isDigit && b.isDigit && c.isDigit && d.isDigit) = true := by
    simp only [Bool.and_eq_true]
    exact ⟨⟨⟨hyc a (by simp), hyc b (by simp)⟩, hyc c (by simp)⟩, hyc d (by simp)⟩
  have harr : (w ++ ' ' :: ds ++ ',' :: ' ' :: [a, b, c, d]) ++ t =
      w ++ ' ' :: (ds ++ ',' :: ' ' :: a :: b :: c :: d :: t) := by
    simp [List.append_assoc]
  rw [harr, dateMatchAt_complete w ds a b c d t hw hwc hds hdsc hdig]
  simp [List.append_assoc]

/-- Claim C1 counterexample: in `rawCex` the matched date substring occurs
twice; the first match is at offset 0 with remainder `postCex`, so removing
that exact substring and trimming would give `pyStrip postCex`, but the code
(`str.replace` removes every occurrence) produces a different description. -/
theorem date_excision_first_only_cex :
    procResult rCex = some srCex ∧
    reSearchDateSplit rawCex = some ([], dCex, postCex) ∧
    pyStrip postCex = "x May 1, 2024".toList ∧
    srCex.description = "x".toList ∧
    srCex.description ≠ pyStrip postCex := by
  refine ⟨by decide, by decide, by decide, by decide, by decide⟩

/-- Claim C1 amended: for every kept result, when the raw description has a
pattern-shaped substring, the date is the substring matched at the leftmost
matching offset (unique at that offset), and the description is the raw
description with every left-to-right non-overlapping occurrence of that
substring removed and then stripped; with no pattern-shaped substring, the
date is null and the description is the raw description unchanged. -/
theorem date_excision_spec (r : RawResult) (sr : SearchResult) (h : procResult r = some sr) :
    ((∃ i, matchFrom (rawDesc r) i) →
      ∃ pre m post, rawDesc r = pre ++ m ++ post ∧ shapeDate m ∧
        (∀ j, matchFrom (rawDesc r) j → pre.length ≤ j) ∧
        (∀ m2 t2, List.drop pre.length (rawDesc r) = m2 ++ t2 → shapeDate m2 → m2 = m) ∧
        sr.date = some m ∧
        sr.description = pyStrip (replaceAll m (rawDesc r))) ∧
    ((∀ i, ¬ matchFrom (rawDesc r) i) → sr.date = none ∧ sr.description = rawDesc r) := by
  obtain ⟨url, hurl, rfl⟩ := procResult_eq_some h
  cases hsplit : reSearchDateSplit (rawDesc r) with
  | none =>
    obtain ⟨hdate, hdesc⟩ := mkResult_of_none url hsplit
    constructor
    · rintro ⟨i, hi⟩
      rw [matchFrom_iff_isSome, reSearchDateSplit_isNone hsplit i] at hi
      exact absurd hi (by simp)
    · intro _
      exact ⟨hdate, hdesc⟩
  | some pmt =>
    obtain ⟨pre, m, post⟩ := pmt
    obtain ⟨heq, hdm, hnone⟩ := reSearchDateSplit_sound hsplit
    obtain ⟨hdrop, hsh⟩ := dateMatchAt_sound hdm
    have hmne : m ≠ [] := shapeDate_ne_nil hsh
    obtain ⟨hdate, hdesc⟩ := mkResult_of_split url hsplit hmne
    constructor
    · intro _
      refine ⟨pre, m, post, heq, hsh, ?_, ?_, hdate, hdesc⟩
      · intro j hj
        by_contra hlt
        push_neg at hlt
        rw [matchFrom_iff_isSome, hnone j hlt] at hj
        exact absurd hj (by simp)
      · intro m2 t2 hdeq hsh2
        have h2 : dateMatchAt (List.drop pre.length (rawDesc r)) = some (m2, t2) := by
          rw [hdeq]
          exact dateMatchAt_of_shape t2 hsh2
        rw [hdm] at h2
        exact (congrArg Prod.fst (Option.some.inj h2)).symm
    · intro hall
      exfalso
      apply hall pre.length
      rw [matchFrom_iff_isSome, hdm]
      rfl

/-- Claim C1 amended witness: a description with a single date substring. -/
theorem date_excision_spec_wit :
    srUniq.date = some dUniq ∧
      srUniq.description = pyStrip (replaceAll dUniq rawUniq) := by
  have hmf : matchFrom (rawDesc rUniq) 10 := by
    rw [matchFrom_iff_isSome]
    decide
  obtain ⟨pre, m, post, heq, hsh, hleft, huni, hdate, hdesc⟩ :=
    (date_excision_spec rUniq srUniq (by decide)).1 ⟨10, hmf⟩
  have hd : srUniq.date = some dUniq := by decide
  rw [hdate] at hd
  have hm : m = dUniq := Option.some.inj hd
  subst hm
  exact ⟨hdate, hdesc⟩

/-- Claim C2 counterexample: for the description in which the matched date
substring occurs twice, no split of the raw description around the date
reconstructs it from the final description modulo trimming: the code removed
both occurrences, so re-inserting the date at its original position does not
recover the raw description. -/
theorem date_reinsertion_cex :
    procResult rCex = some srCex ∧
    srCex.date = some dCex ∧
    ¬ ∃ pre post, rawCex = pre ++ dCex ++ post ∧
      srCex.description = pyStrip (pre ++ post) := by
  refine ⟨by decide, by decide, ?_⟩
  rintro ⟨pre, post, heq, hdesc⟩
  have hpre : List.take pre.length rawCex = pre := by
    rw [heq, List.append_assoc]
    exact List.take_left pre (dCex ++ post)
  have hpost : List.drop (pre.length + dCex.length) rawCex = post := by
    have hdl := List.drop_left (pre ++ dCex) post
    rw [List.length_append] at hdl
    rw [heq]
    exact hdl
  have hlen : pre.length + dCex.length + post.length = rawCex.length := by
    have hc := congrArg List.length heq
    simp only [List.length_append] at hc
    omega
  have h25 : rawCex.length = 25 := by decide
  have h11 : dCex.length = 11 := by decide
  have hble : pre.length ≤ 14 := by omega
  have key : ∀ i, i ≤ 14 →
      ¬(rawCex = List.take i rawCex ++ dCex ++ List.drop (i + dCex.length) rawCex ∧
        pyStrip (List.take i rawCex ++ List.drop (i + dCex.length) rawCex) =
          srCex.description) := by decide
  apply key pre.length hble
  constructor
  · rw [hpre, hpost]
    exact heq
  · rw [hpre, hpost]
    exact hdesc.symm

/-- Claim C2 amended: for a kept result whose date was matched with the split
`pre, date, post`, the raw description is `pre ++ date ++ post`; when the
date substring occurs at no other offset of the raw description, the final
description is exactly `strip (pre ++ post)`, so re-inserting the date at
its original position reconstructs the raw description modulo trimming.  (In
general the code removes every occurrence, as the counterexample shows.) -/
theorem date_reinsertion_unique (r : RawResult) (sr : SearchResult) (pre d post : List Char)
    (h : procResult r = some sr)
    (hsplit : reSearchDateSplit (rawDesc r) = some (pre, d, post))
    (huniq : ∀ i, i ≤ (rawDesc r).length →
      List.isPrefixOf d (List.drop i (rawDesc r)) = true → i = pre.length) :
    sr.date = some d ∧ rawDesc r = pre ++ d ++ post ∧
      sr.description = pyStrip (pre ++ post) := by
  obtain ⟨url, hurl, rfl⟩ := procResult_eq_some h
  obtain ⟨heq, hdm, _⟩ := reSearchDateSplit_sound hsplit
  obtain ⟨_, hsh⟩ := dateMatchAt_sound hdm
  have hdne : d ≠ [] := shapeDate_ne_nil hsh
  obtain ⟨hdate, hdesc⟩ := mkResult_of_split url hsplit hdne
  refine ⟨hdate, heq, ?_⟩
  rw [hdesc]
  have hall : ∀ i, List.isPrefixOf d (List.drop i (pre ++ d ++ post)) = true →
      i = pre.length := by
    intro i hi
    by_cases hle : i ≤ (rawDesc r).length
    · exact huniq i hle (by rw [heq]; exact hi)
    · exfalso
      have hdrop : List.drop i (pre ++ d ++ post) = [] := by
        apply List.drop_eq_nil_of_le
        rw [← heq]
        omega
      rw [hdrop, isPrefixOf_nil_false d hdne] at hi
      exact absurd hi (by simp)
  have hrepl : replaceAll d (rawDesc r) = pre ++ post := by
    rw [replaceAll, if_neg hdne, heq]
    exact replAux_unique_occ d hdne pre post hall
  rw [hrepl]

/-- Claim C2 amended witness: a description with a single date substring. -/
theorem date_reinsertion_unique_wit :
    srUniq.date = some dUniq ∧ rawUniq = preUniq ++ dUniq ++ postUniq ∧
      srUniq.description = pyStrip (preUniq ++ postUniq) :=
  date_reinsertion_unique rUniq srUniq preUniq dUniq postUniq
    (by decide) (by decide) (by decide)
